import Mathlib

/-!
Verification of `src/sage/algebras/commutative_graded_algebra_finite.py`
(`FiniteGCAlgebra`): finitely generated commutative graded algebras with
finite maximal degree.

The embedding models a monomial index as an exponent vector `List ℕ`
(one slot per generator), the generator degrees as a `List ℕ`, and an
algebra element in the image of `product_on_basis` as either the zero
element or a single basis monomial with coefficient 1.  Elements of the
underlying free module are modelled as coefficient functions
`List ℕ → ℚ` (the base field is represented by `ℚ`; no claim depends on
the particular base field).  Strings produced by the printing routines
are modelled as `List Char`.
-/

namespace FiniteGCAlgebra

/-- Monomial exponent vectors are lists of nonnegative integers,
one entry per generator. -/
abbrev Index := List ℕ

/-- Elements of the free module underlying the algebra, as coefficient
functions on monomial indices.  The base field is modelled as `ℚ`. -/
abbrev FElt := Index → ℚ

/-- Modelled from the spec: `WeightedIntegerVectors.grading`, the
weighted-sum degree of an exponent vector (`exponent·degree`, summed).
This enumerator utility lives in `sage.combinat.integer_vector_weighted`,
outside `src/`. -/
def grading (degrees : List ℕ) (w : Index) : ℕ :=
  (List.zipWith (fun e d => e * d) w degrees).sum

/-- Translation of `self.zero()`: the zero element of the free module. -/
def zeroElt : FElt := fun _ => 0

/-- Translation of `self.basis()[w]`: the basis monomial with
coefficient 1 at index `w`. -/
def basisElt (w : Index) : FElt := fun v => if v = w then 1 else 0

/-- Translation of `product_on_basis` (lines 150-207 of the source):
compute the weighted degrees of both factors; if their sum exceeds
`max_deg`, return the zero element, otherwise return the basis monomial
at the elementwise sum `[sum(w) for w in zip(w1, w2)]`. -/
def product_on_basis (degrees : List ℕ) (max_deg : ℕ) (w1 w2 : Index) : FElt :=
  let deg_left := grading degrees w1
  let deg_right := grading degrees w2
  let deg_tot := deg_left + deg_right
  if deg_tot > max_deg then zeroElt
  else basisElt (List.zipWith (fun a b => a + b) w1 w2)

/-- Index-level form of `product_on_basis`: `none` stands for the zero
element, `some w` for the basis monomial with coefficient 1 at `w`.
These are exactly the two shapes `product_on_basis` can return. -/
def productIndex (degrees : List ℕ) (max_deg : ℕ) (w1 w2 : Index) : Option Index :=
  if grading degrees w1 + grading degrees w2 > max_deg then Option.none
  else some (List.zipWith (fun a b => a + b) w1 w2)

/-- Interpretation of an index-level result as a free-module element. -/
def toElt : Option Index → FElt
  | Option.none => zeroElt
  | some w => basisElt w

/-- Modelled from the spec: the free module's bilinear product
extension (provided by `CombinatorialFreeModule`, outside `src/`)
applied on the right by a basis monomial, restricted to elements that
are zero or a single coefficient-1 monomial: `0 * b = 0`, and a basis
monomial times `b_w3` is `product_on_basis` of the two indices. -/
def mulOptBasisRight (degrees : List ℕ) (max_deg : ℕ)
    (x : Option Index) (w3 : Index) : Option Index :=
  match x with
  | Option.none => Option.none
  | some w => productIndex degrees max_deg w w3

/-- Modelled from the spec: the free module's bilinear product
extension applied on the left by a basis monomial (see
`mulOptBasisRight`). -/
def mulOptBasisLeft (degrees : List ℕ) (max_deg : ℕ)
    (w1 : Index) (x : Option Index) : Option Index :=
  match x with
  | Option.none => Option.none
  | some w => productIndex degrees max_deg w1 w

/-- Validity of a basis index: correct length and weighted degree at
most the maximal degree.  The theorem for claim C2 identifies this
predicate with membership in the index list built at construction. -/
def isBasisIndex (degrees : List ℕ) (max_deg : ℕ) (w : Index) : Prop :=
  w.length = degrees.length ∧ grading degrees w ≤ max_deg

instance isBasisIndexDecidable (degrees : List ℕ) (max_deg : ℕ) (w : Index) :
    Decidable (isBasisIndex degrees max_deg w) := by
  unfold isBasisIndex
  infer_instance

/-- The weighted degree of an elementwise sum of equal-length vectors
is the sum of the weighted degrees. -/
theorem grading_zipWith_add (degrees : List ℕ) :
    ∀ w1 w2 : Index, w1.length = w2.length →
      grading degrees (List.zipWith (fun a b => a + b) w1 w2)
        = grading degrees w1 + grading degrees w2 := by
  induction degrees with
  | nil =>
      intro w1 w2 _
      simp [grading]
  | cons d ds ih =>
      intro w1 w2 hlen
      cases w1 with
      | nil =>
          cases w2 with
          | nil => simp [grading]
          | cons b t2 => simp at hlen
      | cons a t1 =>
          cases w2 with
          | nil => simp at hlen
          | cons b t2 =>
              simp only [List.length_cons, Nat.succ.injEq] at hlen
              simp only [List.zipWith_cons_cons, grading, List.sum_cons]
              have := ih t1 t2 hlen
              simp only [grading] at this
              rw [this]
              ring

/-- Elementwise addition of exponent vectors is commutative. -/
theorem zipWith_add_comm :
    ∀ w1 w2 : Index,
      List.zipWith (fun a b => a + b) w1 w2
        = List.zipWith (fun a b => a + b) w2 w1 := by
  intro w1
  induction w1 with
  | nil => intro w2; cases w2 <;> simp
  | cons a t1 ih =>
      intro w2
      cases w2 with
      | nil => simp
      | cons b t2 => simp [Nat.add_comm, ih]

/-- Elementwise addition of exponent vectors is associative. -/
theorem zipWith_add_assoc :
    ∀ w1 w2 w3 : Index,
      List.zipWith (fun a b => a + b) (List.zipWith (fun a b => a + b) w1 w2) w3
        = List.zipWith (fun a b => a + b) w1 (List.zipWith (fun a b => a + b) w2 w3) := by
  intro w1
  induction w1 with
  | nil => intro w2 w3; simp
  | cons a t1 ih =>
      intro w2 w3
      cases w2 with
      | nil => simp
      | cons b t2 =>
          cases w3 with
          | nil => simp
          | cons c t3 => simp [Nat.add_assoc, ih]

/-- The function-level product agrees with the index-level product
under the interpretation `toElt`. -/
theorem product_on_basis_eq_toElt (degrees : List ℕ) (max_deg : ℕ) (w1 w2 : Index) :
    product_on_basis degrees max_deg w1 w2
      = toElt (productIndex degrees max_deg w1 w2) := by
  unfold product_on_basis productIndex
  by_cases h : grading degrees w1 + grading degrees w2 > max_deg
  · simp [h, toElt]
  · simp [h, toElt]

/-- Claim C1: for valid basis indices `w1`, `w2`, `product_on_basis`
returns the zero element when the sum of the weighted degrees exceeds
`max_degree`, and otherwise returns the basis monomial with coefficient
1 at the elementwise sum of `w1` and `w2`, whose weighted degree equals
`grading w1 + grading w2`. -/
theorem product_on_basis_spec (degrees : List ℕ) (max_deg : ℕ) (w1 w2 : Index)
    (h1 : isBasisIndex degrees max_deg w1) (h2 : isBasisIndex degrees max_deg w2) :
    (max_deg < grading degrees w1 + grading degrees w2 →
      product_on_basis degrees max_deg w1 w2 = zeroElt)
    ∧ (grading degrees w1 + grading degrees w2 ≤ max_deg →
      product_on_basis degrees max_deg w1 w2
          = basisElt (List.zipWith (fun a b => a + b) w1 w2)
        ∧ grading degrees (List.zipWith (fun a b => a + b) w1 w2)
            = grading degrees w1 + grading degrees w2) := by
  constructor
  · intro hgt
    unfold product_on_basis
    simp [hgt]
  · intro hle
    have hnot : ¬ (grading degrees w1 + grading degrees w2 > max_deg) := by omega
    constructor
    · unfold product_on_basis
      simp [hnot]
    · exact grading_zipWith_add degrees w1 w2 (h1.1.trans h2.1.symm)

/-- Witness for claim C1 at degrees (4,8,2), maximal degree 10,
indices [1,0,1] and [0,0,0]. -/
theorem product_on_basis_spec_witness :
    isBasisIndex [4, 8, 2] 10 [1, 0, 1] ∧ isBasisIndex [4, 8, 2] 10 [0, 0, 0]
    ∧ ((10 < grading [4, 8, 2] [1, 0, 1] + grading [4, 8, 2] [0, 0, 0] →
        product_on_basis [4, 8, 2] 10 [1, 0, 1] [0, 0, 0] = zeroElt)
      ∧ (grading [4, 8, 2] [1, 0, 1] + grading [4, 8, 2] [0, 0, 0] ≤ 10 →
        product_on_basis [4, 8, 2] 10 [1, 0, 1] [0, 0, 0]
            = basisElt (List.zipWith (fun a b => a + b) [1, 0, 1] [0, 0, 0])
          ∧ grading [4, 8, 2] (List.zipWith (fun a b => a + b) [1, 0, 1] [0, 0, 0])
              = grading [4, 8, 2] [1, 0, 1] + grading [4, 8, 2] [0, 0, 0])) :=
  ⟨by decide, by decide,
    product_on_basis_spec [4, 8, 2] 10 [1, 0, 1] [0, 0, 0] (by decide) (by decide)⟩

/-- Claim C3: the basis-level product is commutative; no
graded-commutative sign is introduced at this layer. -/
theorem product_on_basis_comm (degrees : List ℕ) (max_deg : ℕ) (w1 w2 : Index)
    (h1 : isBasisIndex degrees max_deg w1) (h2 : isBasisIndex degrees max_deg w2) :
    product_on_basis degrees max_deg w1 w2 = product_on_basis degrees max_deg w2 w1 := by
  unfold product_on_basis
  simp only [Nat.add_comm (grading degrees w1) (grading degrees w2),
    zipWith_add_comm w1 w2]

/-- Witness for claim C3 at degrees (1,2,3), maximal degree 5,
indices [1,0,0] and [0,0,1]. -/
theorem product_on_basis_comm_witness :
    isBasisIndex [1, 2, 3] 5 [1, 0, 0] ∧ isBasisIndex [1, 2, 3] 5 [0, 0, 1]
    ∧ product_on_basis [1, 2, 3] 5 [1, 0, 0] [0, 0, 1]
        = product_on_basis [1, 2, 3] 5 [0, 0, 1] [1, 0, 0] :=
  ⟨by decide, by decide,
    product_on_basis_comm [1, 2, 3] 5 [1, 0, 0] [0, 0, 1] (by decide) (by decide)⟩

/-- Unfolding of `grading` on a leading generator. -/
theorem grading_cons (d : ℕ) (ds : List ℕ) (e : ℕ) (w : Index) :
    grading (d :: ds) (e :: w) = e * d + grading ds w := rfl

/-- Modelled from the spec: the enumerator `WeightedIntegerVectors(k,
degrees)` (in `sage.combinat.integer_vector_weighted`, outside `src/`),
producing all exponent vectors of length `degrees.length` whose
weighted-sum degree is exactly `k`.  Positive weights make the
enumeration finite. -/
def weightedVectors : ℕ → List ℕ → List Index
  | k, [] => if k = 0 then [[]] else []
  | k, d :: ds =>
      (List.range (k / d + 1)).flatMap
        (fun e => (weightedVectors (k - e * d) ds).map (fun w => e :: w))

/-- Characterisation of the weighted-vector enumeration for positive
weights: exactly the vectors of matching length and weighted degree. -/
theorem weightedVectors_mem (ds : List ℕ) (hpos : ∀ x ∈ ds, 0 < x) :
    ∀ (k : ℕ) (w : Index),
      w ∈ weightedVectors k ds ↔ w.length = ds.length ∧ grading ds w = k := by
  induction ds with
  | nil =>
      intro k w
      by_cases hk : k = 0
      · subst hk
        constructor
        · intro hmem
          have hw : w = [] := by simpa [weightedVectors] using hmem
          subst hw
          exact ⟨rfl, rfl⟩
        · rintro ⟨hlen, -⟩
          have hw : w = [] := List.length_eq_zero.mp hlen
          subst hw
          simp [weightedVectors]
      · constructor
        · intro hmem
          simp [weightedVectors, hk] at hmem
        · rintro ⟨hlen, hgrad⟩
          exfalso
          have hw : w = [] := List.length_eq_zero.mp hlen
          subst hw
          simp only [grading, List.zipWith_nil_right, List.sum_nil] at hgrad
          exact hk hgrad.symm
  | cons d ds ih =>
      intro k w
      have hd : 0 < d := hpos d (by simp)
      have hpos' : ∀ x ∈ ds, 0 < x := fun x hx => hpos x (by simp [hx])
      have ih' := ih hpos'
      constructor
      · intro hmem
        simp only [weightedVectors] at hmem
        rw [List.mem_flatMap] at hmem
        obtain ⟨e, he, hw⟩ := hmem
        rw [List.mem_map] at hw
        obtain ⟨w2, hw2, rfl⟩ := hw
        obtain ⟨hlen, hgrad⟩ := (ih' _ w2).mp hw2
        have hediv : e ≤ k / d := Nat.lt_succ_iff.mp (List.mem_range.mp he)
        have hed : e * d ≤ k := (Nat.le_div_iff_mul_le hd).mp hediv
        refine ⟨by simp [hlen], ?_⟩
        rw [grading_cons, hgrad]
        omega
      · rintro ⟨hlen, hgrad⟩
        cases w with
        | nil => simp at hlen
        | cons e w2 =>
            simp only [List.length_cons, Nat.succ.injEq] at hlen
            rw [grading_cons] at hgrad
            have hed : e * d ≤ k := by omega
            simp only [weightedVectors]
            rw [List.mem_flatMap]
            refine ⟨e, List.mem_range.mpr
              (Nat.lt_succ_of_le ((Nat.le_div_iff_mul_le hd).mpr hed)), ?_⟩
            rw [List.mem_map]
            exact ⟨w2, (ih' _ w2).mpr ⟨hlen, by omega⟩, rfl⟩

/-- Modelled from the spec: the greatest-common-divisor utility over
the degree tuple (`sage.arith.misc.gcd`, outside `src/`). -/
def listGcd : List ℕ → ℕ
  | [] => 0
  | d :: ds => Nat.gcd d (listGcd ds)

/-- Every weighted-sum degree is a multiple of the gcd of the degree
tuple. -/
theorem listGcd_dvd_grading (ds : List ℕ) :
    ∀ w : Index, listGcd ds ∣ grading ds w := by
  induction ds with
  | nil =>
      intro w
      simp [grading]
  | cons d ds ih =>
      intro w
      cases w with
      | nil => simp [grading]
      | cons e w2 =>
          rw [grading_cons]
          exact Nat.dvd_add
            (Dvd.dvd.mul_left (Nat.gcd_dvd_left d (listGcd ds)) e)
            ((Nat.gcd_dvd_right d (listGcd ds)).trans (ih w2))

/-- The gcd of a nonempty list of positive degrees is positive. -/
theorem listGcd_pos (ds : List ℕ) (hne : ds ≠ []) (hpos : ∀ x ∈ ds, 0 < x) :
    0 < listGcd ds := by
  cases ds with
  | nil => exact absurd rfl hne
  | cons d t =>
      have hd : 0 < d := hpos d (by simp)
      have : Nat.gcd d (listGcd t) ≠ 0 := by
        intro h
        rw [Nat.gcd_eq_zero_iff] at h
        omega
      simp only [listGcd]
      omega

/-- Translation of `range(0, max_deg + 1, step)` for a positive
`step`: the multiples of `step` that are at most `max_deg`. -/
def degreeSteps (max_deg step : ℕ) : List ℕ :=
  (List.range (max_deg / step + 1)).map (fun j => j * step)

/-- Membership in the strided degree range, for a positive stride. -/
theorem degreeSteps_mem (max_deg step : ℕ) (hs : 0 < step) (k : ℕ) :
    k ∈ degreeSteps max_deg step ↔ step ∣ k ∧ k ≤ max_deg := by
  unfold degreeSteps
  rw [List.mem_map]
  constructor
  · rintro ⟨j, hj, rfl⟩
    have hjle : j ≤ max_deg / step := Nat.lt_succ_iff.mp (List.mem_range.mp hj)
    exact ⟨⟨j, Nat.mul_comm j step⟩, (Nat.le_div_iff_mul_le hs).mp hjle⟩
  · rintro ⟨⟨j, rfl⟩, hle⟩
    refine ⟨j, List.mem_range.mpr (Nat.lt_succ_of_le ?_), Nat.mul_comm j step⟩
    rw [Nat.le_div_iff_mul_le hs, Nat.mul_comm j step]
    exact hle

/-- Translation of the index construction in `__init__` (lines
118-133): all weighted integer vectors of every degree `k` in
`range(0, max_degree + 1, gcd(degrees))`. -/
def indices (degrees : List ℕ) (max_deg : ℕ) : List Index :=
  (degreeSteps max_deg (listGcd degrees)).flatMap
    (fun k => weightedVectors k degrees)

/-- Formalisation of the spec's alternative enumeration ("enumerating
every degree from 0 to max_degree"), used for the refinement part of
claim C2. -/
def indicesFull (degrees : List ℕ) (max_deg : ℕ) : List Index :=
  (List.range (max_deg + 1)).flatMap (fun k => weightedVectors k degrees)

/-- Claim C2: the index set built at construction is exactly the set
of exponent vectors over the generators whose weighted-sum degree is at
most `max_degree`, and the gcd-strided enumeration loses no index
compared with enumerating every degree from 0 to `max_degree`. -/
theorem indices_spec (degrees : List ℕ) (max_deg : ℕ)
    (hne : degrees ≠ []) (hpos : ∀ x ∈ degrees, 0 < x) :
    (∀ w, w ∈ indices degrees max_deg ↔ isBasisIndex degrees max_deg w)
    ∧ (∀ w, w ∈ indices degrees max_deg ↔ w ∈ indicesFull degrees max_deg) := by
  have hg : 0 < listGcd degrees := listGcd_pos degrees hne hpos
  have hmem : ∀ w, w ∈ indices degrees max_deg ↔ isBasisIndex degrees max_deg w := by
    intro w
    unfold indices
    rw [List.mem_flatMap]
    constructor
    · rintro ⟨k, hk, hw⟩
      obtain ⟨hlen, hgrad⟩ := (weightedVectors_mem degrees hpos k w).mp hw
      obtain ⟨-, hkle⟩ := (degreeSteps_mem max_deg (listGcd degrees) hg k).mp hk
      exact ⟨hlen, by omega⟩
    · rintro ⟨hlen, hle⟩
      refine ⟨grading degrees w, ?_, ?_⟩
      · rw [degreeSteps_mem max_deg (listGcd degrees) hg]
        exact ⟨listGcd_dvd_grading degrees w, hle⟩
      · rw [weightedVectors_mem degrees hpos]
        exact ⟨hlen, rfl⟩
  have hfull : ∀ w, w ∈ indicesFull degrees max_deg ↔ isBasisIndex degrees max_deg w := by
    intro w
    unfold indicesFull
    rw [List.mem_flatMap]
    constructor
    · rintro ⟨k, hk, hw⟩
      obtain ⟨hlen, hgrad⟩ := (weightedVectors_mem degrees hpos k w).mp hw
      have := List.mem_range.mp hk
      exact ⟨hlen, by omega⟩
    · rintro ⟨hlen, hle⟩
      exact ⟨grading degrees w, List.mem_range.mpr (by omega),
        (weightedVectors_mem degrees hpos _ w).mpr ⟨hlen, rfl⟩⟩
  exact ⟨hmem, fun w => (hmem w).trans (hfull w).symm⟩

/-- Witness for claim C2 at degrees (2,4), maximal degree 5, index
[1,0]. -/
theorem indices_spec_witness :
    ([2, 4] : List ℕ) ≠ [] ∧ (∀ x ∈ ([2, 4] : List ℕ), 0 < x)
    ∧ ([1, 0] ∈ indices [2, 4] 5 ↔ isBasisIndex [2, 4] 5 [1, 0])
    ∧ ([1, 0] ∈ indices [2, 4] 5 ↔ [1, 0] ∈ indicesFull [2, 4] 5) :=
  ⟨by decide, by decide,
    (indices_spec [2, 4] 5 (by decide) (by decide)).1 [1, 0],
    (indices_spec [2, 4] 5 (by decide) (by decide)).2 [1, 0]⟩

/-- The right product of a zero-or-monomial element with a basis
monomial collapses to a single truncation test on the total degree. -/
theorem mulOptBasisRight_productIndex (degrees : List ℕ) (max_deg : ℕ)
    (w1 w2 w3 : Index)
    (e12 : grading degrees (List.zipWith (fun a b => a + b) w1 w2)
      = grading degrees w1 + grading degrees w2) :
    mulOptBasisRight degrees max_deg (productIndex degrees max_deg w1 w2) w3
      = if max_deg < grading degrees w1 + grading degrees w2 + grading degrees w3
        then Option.none
        else some (List.zipWith (fun a b => a + b)
            (List.zipWith (fun a b => a + b) w1 w2) w3) := by
  by_cases h12 : max_deg < grading degrees w1 + grading degrees w2
  · have hp : productIndex degrees max_deg w1 w2 = Option.none := by
      unfold productIndex
      rw [if_pos h12]
    have htot : max_deg < grading degrees w1 + grading degrees w2 + grading degrees w3 := by
      omega
    rw [hp]
    simp only [mulOptBasisRight]
    rw [if_pos htot]
  · have hp : productIndex degrees max_deg w1 w2
        = some (List.zipWith (fun a b => a + b) w1 w2) := by
      unfold productIndex
      rw [if_neg h12]
    rw [hp]
    simp only [mulOptBasisRight]
    unfold productIndex
    rw [e12]

/-- The left product of a basis monomial with a zero-or-monomial
element collapses to a single truncation test on the total degree. -/
theorem mulOptBasisLeft_productIndex (degrees : List ℕ) (max_deg : ℕ)
    (w1 w2 w3 : Index)
    (e23 : grading degrees (List.zipWith (fun a b => a + b) w2 w3)
      = grading degrees w2 + grading degrees w3) :
    mulOptBasisLeft degrees max_deg w1 (productIndex degrees max_deg w2 w3)
      = if max_deg < grading degrees w1 + (grading degrees w2 + grading degrees w3)
        then Option.none
        else some (List.zipWith (fun a b => a + b) w1
            (List.zipWith (fun a b => a + b) w2 w3)) := by
  by_cases h23 : max_deg < grading degrees w2 + grading degrees w3
  · have hp : productIndex degrees max_deg w2 w3 = Option.none := by
      unfold productIndex
      rw [if_pos h23]
    have htot : max_deg
        < grading degrees w1 + (grading degrees w2 + grading degrees w3) := by
      omega
    rw [hp]
    simp only [mulOptBasisLeft]
    rw [if_pos htot]
  · have hp : productIndex degrees max_deg w2 w3
        = some (List.zipWith (fun a b => a + b) w2 w3) := by
      unfold productIndex
      rw [if_neg h23]
    rw [hp]
    simp only [mulOptBasisLeft]
    unfold productIndex
    rw [e23]

/-- Claim C4: the product induced by `product_on_basis` is associative
modulo truncation to zero.  For valid basis indices `w1`, `w2`, `w3`,
multiplying the element `product_on_basis w1 w2` on the right by the
basis monomial at `w3` equals multiplying the basis monomial at `w1` by
`product_on_basis w2 w3`; both groupings give the basis monomial at the
elementwise sum of the three indices when the total weighted degree is
at most `max_degree`, and the zero element otherwise. -/
theorem product_on_basis_assoc (degrees : List ℕ) (max_deg : ℕ) (w1 w2 w3 : Index)
    (h1 : isBasisIndex degrees max_deg w1) (h2 : isBasisIndex degrees max_deg w2)
    (h3 : isBasisIndex degrees max_deg w3) :
    mulOptBasisRight degrees max_deg (productIndex degrees max_deg w1 w2) w3
      = mulOptBasisLeft degrees max_deg w1 (productIndex degrees max_deg w2 w3)
    ∧ toElt (mulOptBasisRight degrees max_deg (productIndex degrees max_deg w1 w2) w3)
      = toElt (mulOptBasisLeft degrees max_deg w1 (productIndex degrees max_deg w2 w3))
    ∧ (grading degrees w1 + grading degrees w2 + grading degrees w3 ≤ max_deg →
        toElt (mulOptBasisRight degrees max_deg (productIndex degrees max_deg w1 w2) w3)
          = basisElt (List.zipWith (fun a b => a + b)
              (List.zipWith (fun a b => a + b) w1 w2) w3))
    ∧ (max_deg < grading degrees w1 + grading degrees w2 + grading degrees w3 →
        toElt (mulOptBasisRight degrees max_deg (productIndex degrees max_deg w1 w2) w3)
          = zeroElt) := by
  have e12 : grading degrees (List.zipWith (fun a b => a + b) w1 w2)
      = grading degrees w1 + grading degrees w2 :=
    grading_zipWith_add degrees w1 w2 (h1.1.trans h2.1.symm)
  have e23 : grading degrees (List.zipWith (fun a b => a + b) w2 w3)
      = grading degrees w2 + grading degrees w3 :=
    grading_zipWith_add degrees w2 w3 (h2.1.trans h3.1.symm)
  have hR := mulOptBasisRight_productIndex degrees max_deg w1 w2 w3 e12
  have hL := mulOptBasisLeft_productIndex degrees max_deg w1 w2 w3 e23
  have hfirst : mulOptBasisRight degrees max_deg (productIndex degrees max_deg w1 w2) w3
      = mulOptBasisLeft degrees max_deg w1 (productIndex degrees max_deg w2 w3) := by
    rw [hR, hL]
    by_cases htot : max_deg
        < grading degrees w1 + grading degrees w2 + grading degrees w3
    · rw [if_pos htot, if_pos (by omega)]
    · rw [if_neg htot, if_neg (by omega), zipWith_add_assoc]
  refine ⟨hfirst, congrArg toElt hfirst, ?_, ?_⟩
  · intro hle
    rw [hR, if_neg (by omega)]
    rfl
  · intro hgt
    rw [hR, if_pos hgt]
    rfl

/-- Witness for claim C4 at degrees (1,2,3), maximal degree 5, indices
[1,0,0], [0,1,0], [0,0,1]. -/
theorem product_on_basis_assoc_witness :
    isBasisIndex [1, 2, 3] 5 [1, 0, 0] ∧ isBasisIndex [1, 2, 3] 5 [0, 1, 0]
    ∧ isBasisIndex [1, 2, 3] 5 [0, 0, 1]
    ∧ mulOptBasisRight [1, 2, 3] 5 (productIndex [1, 2, 3] 5 [1, 0, 0] [0, 1, 0]) [0, 0, 1]
        = mulOptBasisLeft [1, 2, 3] 5 [1, 0, 0] (productIndex [1, 2, 3] 5 [0, 1, 0] [0, 0, 1]) :=
  ⟨by decide, by decide, by decide,
    (product_on_basis_assoc [1, 2, 3] 5 [1, 0, 0] [0, 1, 0] [0, 0, 1]
      (by decide) (by decide) (by decide)).1⟩

/-- Python strings are modelled as lists of characters. -/
abbrev PyStr := List Char

/-- Translation of Python `s.split(',')`: split a string at every
comma; the empty string yields one empty field. -/
def splitOnComma : PyStr → List PyStr
  | [] => [[]]
  | c :: rest =>
      let r := splitOnComma rest
      if c = ',' then [] :: r
      else
        match r with
        | [] => [[c]]
        | t :: ts => (c :: t) :: ts

/-- Translation of `tuple('x{}'.format(i) for i in range(n))`: the
default generator names `x0`, `x1`, ... -/
def defaultNames (n : ℕ) : List PyStr :=
  (List.range n).map (fun i => 'x' :: Nat.toDigits 10 i)

/-- The three shapes the `names` argument of `__classcall__` can take:
omitted (`None`), a single comma-delimited string, or a list of
strings. -/
inductive NamesArg where
  | omitted : NamesArg
  | str : PyStr → NamesArg
  | fromList : List PyStr → NamesArg
deriving DecidableEq

/-- Translation of the normalisation part of `__classcall__` (lines
80-95): returns `none` when both `names` and `degrees` are omitted
(the `ValueError` at line 82), and otherwise the canonical tuple of
names and degrees: a comma-delimited string of names is split, omitted
names become `len(degrees)` default names, omitted degrees become all
ones. -/
def canonicalArgs (names : NamesArg) (degrees : Option (List ℤ)) :
    Option (List PyStr × List ℤ) :=
  match names, degrees with
  | NamesArg.omitted, Option.none => Option.none
  | NamesArg.omitted, some ds => some (defaultNames ds.length, ds)
  | NamesArg.str s, ds =>
      let ns := splitOnComma s
      some (ns, ds.getD (List.replicate ns.length 1))
  | NamesArg.fromList l, ds => some (l, ds.getD (List.replicate l.length 1))

/-- Translation of Python `max(list)`: `none` models the `ValueError`
raised on an empty sequence. -/
def pyMax : List ℤ → Option ℤ
  | [] => Option.none
  | a :: as => some (as.foldl (fun x y => max x y) a)

/-- A left fold of binary maximum is bounded by `m` exactly when the
seed and every list element are. -/
theorem foldlMax_le (as : List ℤ) : ∀ a m : ℤ,
    as.foldl (fun x y => max x y) a ≤ m ↔ a ≤ m ∧ ∀ x ∈ as, x ≤ m := by
  induction as with
  | nil =>
      intro a m
      simp
  | cons b t ih =>
      intro a m
      simp only [List.foldl_cons, ih, max_le_iff, List.mem_cons]
      constructor
      · rintro ⟨⟨ha, hb⟩, ht⟩
        exact ⟨ha, fun x hx => hx.elim (fun h => h ▸ hb) (ht x)⟩
      · rintro ⟨ha, h⟩
        exact ⟨⟨ha, h b (Or.inl rfl)⟩, fun x hx => h x (Or.inr hx)⟩

/-- Translation of `__classcall__` (lines 57-102): normalise the
arguments, then fail unless `max_degree` is at least the largest
generator degree (`if max_degree < max(degrees)` at line 96; Python's
`max` itself fails on an empty sequence). -/
def classcall (max_degree : ℤ) (names : NamesArg) (degrees : Option (List ℤ)) :
    Except String (List PyStr × List ℤ) :=
  match canonicalArgs names degrees with
  | Option.none => Except.error "You must specify names or degrees"
  | some (ns, ds) =>
      match pyMax ds with
      | Option.none => Except.error "max arg is an empty sequence"
      | some mx =>
          if max_degree < mx then
            Except.error "max_degree must not deceed the maximal generator degree"
          else Except.ok (ns, ds)

/-- Claim C5, amended: normalisation fails exactly when both names and
degrees are omitted, and `__classcall__` succeeds exactly when
normalisation succeeds, the canonical degree tuple is nonempty, and
`max_degree` is at least every generator degree. -/
theorem classcall_spec (m : ℤ) (n : NamesArg) (d : Option (List ℤ)) :
    (canonicalArgs n d = Option.none ↔ n = NamesArg.omitted ∧ d = Option.none)
    ∧ ((∃ p, classcall m n d = Except.ok p) ↔
        ∃ ns ds, canonicalArgs n d = some (ns, ds) ∧ ds ≠ [] ∧ ∀ x ∈ ds, x ≤ m) := by
  constructor
  · cases n <;> cases d <;> simp [canonicalArgs]
  · unfold classcall
    cases hc : canonicalArgs n d with
    | none => simp
    | some p =>
        obtain ⟨ns, ds⟩ := p
        cases ds with
        | nil => simp [pyMax]
        | cons a t =>
            simp only [pyMax]
            by_cases hlt : m < t.foldl (fun x y => max x y) a
            · rw [if_pos hlt]
              constructor
              · rintro ⟨p, hp⟩
                exact absurd hp (by simp)
              · rintro ⟨ns', ds', heq, hne, hall⟩
                rw [Option.some_inj] at heq
                cases heq
                have h1 : a ≤ m := hall a (by simp)
                have h2 : ∀ x ∈ t, x ≤ m := fun x hx => hall x (by simp [hx])
                have hfold := (foldlMax_le t a m).mpr ⟨h1, h2⟩
                exact absurd hfold (by omega)
            · rw [if_neg hlt]
              constructor
              · rintro -
                refine ⟨ns, a :: t, rfl, by simp, ?_⟩
                have hfold : t.foldl (fun x y => max x y) a ≤ m := by omega
                obtain ⟨h1, h2⟩ := (foldlMax_le t a m).mp hfold
                intro x hx
                rcases List.mem_cons.mp hx with h | h
                · exact h ▸ h1
                · exact h2 x h
              · rintro -
                exact ⟨(ns, a :: t), rfl⟩

/-- Witness for claim C5 at max_degree 12, names "x,y", degrees
(3, 6). -/
theorem classcall_spec_witness :
    ((canonicalArgs (NamesArg.str ['x', ',', 'y']) (some [3, 6]) = Option.none)
      ↔ (NamesArg.str ['x', ',', 'y'] = NamesArg.omitted
          ∧ (some [3, 6] : Option (List ℤ)) = Option.none))
    ∧ ((∃ p, classcall 12 (NamesArg.str ['x', ',', 'y']) (some [3, 6]) = Except.ok p)
      ↔ ∃ ns ds, canonicalArgs (NamesArg.str ['x', ',', 'y']) (some [3, 6])
          = some (ns, ds) ∧ ds ≠ [] ∧ ∀ x ∈ ds, x ≤ (12 : ℤ)) :=
  classcall_spec 12 (NamesArg.str ['x', ',', 'y']) (some [3, 6])

/-- Counterexample to claim C5 as stated: with `names` supplied as the
empty list and `degrees` omitted, no generator degree exceeds
`max_degree = 5`, yet construction fails (Python's `max` raises on the
empty canonical degree tuple). -/
theorem classcall_empty_cex :
    NamesArg.fromList [] ≠ NamesArg.omitted
    ∧ (∀ ns ds, canonicalArgs (NamesArg.fromList []) Option.none = some (ns, ds) →
        ∀ x ∈ ds, x ≤ (5 : ℤ))
    ∧ classcall 5 (NamesArg.fromList []) Option.none
        = Except.error "max arg is an empty sequence" := by
  refine ⟨by simp, ?_, rfl⟩
  intro ns ds h
  simp only [canonicalArgs, List.length_nil, List.replicate_zero,
    Option.getD_none, Option.some_inj] at h
  cases h
  simp

/-- Claim C6: `__classcall__` canonicalises its arguments: a
comma-delimited string of names is split into an ordered tuple; omitted
names become exactly `len(degrees)` synthesized default names; omitted
degrees become all ones; and two argument lists with the same canonical
form construct the same algebra. -/
theorem classcall_canonicalization :
    (∀ (s : PyStr) (d : Option (List ℤ)),
        canonicalArgs (NamesArg.str s) d
          = some (splitOnComma s, d.getD (List.replicate (splitOnComma s).length 1)))
    ∧ (∀ ds : List ℤ,
        canonicalArgs NamesArg.omitted (some ds) = some (defaultNames ds.length, ds)
        ∧ (defaultNames ds.length).length = ds.length)
    ∧ (∀ l : List PyStr,
        canonicalArgs (NamesArg.fromList l) Option.none
          = some (l, List.replicate l.length 1))
    ∧ (∀ (m : ℤ) (n1 : NamesArg) (d1 : Option (List ℤ))
          (n2 : NamesArg) (d2 : Option (List ℤ)),
        canonicalArgs n1 d1 = canonicalArgs n2 d2 →
          classcall m n1 d1 = classcall m n2 d2) := by
  refine ⟨?_, ?_, ?_, ?_⟩
  · intro s d
    rfl
  · intro ds
    exact ⟨rfl, by simp [defaultNames]⟩
  · intro l
    rfl
  · intro m n1 d1 n2 d2 h
    unfold classcall
    rw [h]

/-- Witness for claim C6: the names "x,y" with degrees (3, 6) and the
names list [x, y] with degrees (3, 6) canonicalise identically, hence
construct the same algebra (the doctest `A1 is A2`). -/
theorem classcall_canonicalization_witness :
    canonicalArgs (NamesArg.str ['x', ',', 'y']) (some [3, 6])
        = canonicalArgs (NamesArg.fromList [['x'], ['y']]) (some [3, 6])
    ∧ classcall 12 (NamesArg.str ['x', ',', 'y']) (some [3, 6])
        = classcall 12 (NamesArg.fromList [['x'], ['y']]) (some [3, 6]) :=
  ⟨by decide,
    classcall_canonicalization.2.2.2 12 (NamesArg.str ['x', ',', 'y']) (some [3, 6])
      (NamesArg.fromList [['x'], ['y']]) (some [3, 6]) (by decide)⟩

/-- Translation of the index construction inside `gens` (lines
296-302): for each generator slot `k`, the exponent vector that is zero
everywhere except for a 1 in slot `k`. -/
def gensIndices (degrees : List ℕ) : List Index :=
  (List.range degrees.length).map
    (fun k => (List.replicate degrees.length 0).set k 1)

/-- Translation of `gens` (lines 291-303): the basis monomials at the
unit exponent vectors, in declaration order. -/
def gens (degrees : List ℕ) : List FElt :=
  (gensIndices degrees).map basisElt

/-- The weighted degree of the all-zero exponent vector is zero. -/
theorem grading_replicate_zero (ds : List ℕ) :
    ∀ n : ℕ, grading ds (List.replicate n 0) = 0 := by
  induction ds with
  | nil =>
      intro n
      simp [grading]
  | cons d t ih =>
      intro n
      cases n with
      | zero => simp [grading]
      | succ n2 =>
          rw [List.replicate_succ, grading_cons, ih n2]
          simp

/-- The weighted degree of the unit exponent vector in slot `k` is the
`k`-th generator degree. -/
theorem grading_unit (degrees : List ℕ) : ∀ (k : ℕ) (h : k < degrees.length),
    grading degrees ((List.replicate degrees.length 0).set k 1) = degrees[k] := by
  induction degrees with
  | nil =>
      intro k h
      simp at h
  | cons x ds ih =>
      intro k h
      cases k with
      | zero =>
          rw [List.length_cons, List.replicate_succ, List.set_cons_zero,
            grading_cons, grading_replicate_zero]
          simp
      | succ k2 =>
          rw [List.length_cons, List.replicate_succ, List.set_cons_succ,
            grading_cons]
          have h2 : k2 < ds.length := by
            simpa using h
          rw [ih k2 h2]
          simp

/-- Claim C7: `gens` returns exactly `len(degrees)` elements in
declaration order; the `k`-th is the basis monomial whose exponent
vector has a 1 in position `k` and 0 elsewhere, and its weighted degree
is `degrees[k]`. -/
theorem gens_spec (degrees : List ℕ) (k : ℕ) (h : k < degrees.length) :
    (gens degrees).length = degrees.length
    ∧ (gens degrees)[k]? = some (basisElt ((List.replicate degrees.length 0).set k 1))
    ∧ degrees[k]? = some (grading degrees ((List.replicate degrees.length 0).set k 1)) := by
  refine ⟨by simp [gens, gensIndices], ?_, ?_⟩
  · simp [gens, gensIndices, List.getElem?_map, List.getElem?_range, h]
  · rw [List.getElem?_eq_getElem h, grading_unit degrees k h]

/-- Witness for claim C7 at degrees (4,8,2), slot 1. -/
theorem gens_spec_witness :
    1 < ([4, 8, 2] : List ℕ).length
    ∧ (gens [4, 8, 2]).length = ([4, 8, 2] : List ℕ).length
    ∧ (gens [4, 8, 2])[1]? = some (basisElt ((List.replicate 3 0).set 1 1))
    ∧ ([4, 8, 2] : List ℕ)[1]? = some (grading [4, 8, 2] ((List.replicate 3 0).set 1 1)) :=
  ⟨by decide, gens_spec [4, 8, 2] 1 (by decide)⟩

/-- Translation of Python sequence subscription `l[i]` with an integer
index: nonnegative indices count from the front, negative indices count
from the back, and anything out of range is an `IndexError`, modelled
as `none`. -/
def pyGetItem {α : Type} (l : List α) (i : ℤ) : Option α :=
  if 0 ≤ i then l[i.toNat]?
  else if 0 ≤ i + l.length then l[(i + l.length).toNat]? else Option.none

/-- Translation of `gen` (lines 305-311): `self.gens()[i]`, the
failure delegated to Python list subscription. -/
def gen (degrees : List ℕ) (i : ℤ) : Option FElt :=
  pyGetItem (gens degrees) i

/-- Claim C8, amended: `gen i` returns `gens()[i]` for
`0 ≤ i < len(degrees)`, fails with an index error when
`i ≥ len(degrees)` or `i < -len(degrees)`, and for negative in-range
`i` returns `gens()[len(degrees) + i]`, per Python sequence
subscription semantics. -/
theorem gen_spec (degrees : List ℕ) (i : ℤ) :
    (0 ≤ i → i < (degrees.length : ℤ) →
      gen degrees i = (gens degrees)[i.toNat]?
      ∧ ((gens degrees)[i.toNat]?).isSome = true)
    ∧ ((degrees.length : ℤ) ≤ i → gen degrees i = Option.none)
    ∧ (i < -(degrees.length : ℤ) → gen degrees i = Option.none)
    ∧ (-(degrees.length : ℤ) ≤ i → i < 0 →
      gen degrees i = (gens degrees)[(i + (degrees.length : ℤ)).toNat]?
      ∧ ((gens degrees)[(i + (degrees.length : ℤ)).toNat]?).isSome = true) := by
  have hlen : (gens degrees).length = degrees.length := by
    simp [gens, gensIndices]
  refine ⟨?_, ?_, ?_, ?_⟩
  · intro h0 h1
    have ht : i.toNat < (gens degrees).length := by
      rw [hlen]
      omega
    constructor
    · unfold gen pyGetItem
      rw [if_pos h0]
    · rw [List.getElem?_eq_getElem ht]
      rfl
  · intro hge
    unfold gen pyGetItem
    rw [if_pos (by omega)]
    exact List.getElem?_eq_none (by rw [hlen]; omega)
  · intro hlt
    unfold gen pyGetItem
    rw [if_neg (by omega), if_neg (by rw [hlen]; omega)]
  · intro hge hlt
    have ht : (i + (degrees.length : ℤ)).toNat < (gens degrees).length := by
      rw [hlen]
      omega
    constructor
    · unfold gen pyGetItem
      rw [if_neg (by omega), if_pos (by rw [hlen]; omega), hlen]
    · rw [List.getElem?_eq_getElem ht]
      rfl

/-- Witness for the amended claim C8 at degrees (1, 2), index 0. -/
theorem gen_spec_witness :
    (0 : ℤ) ≤ 0 ∧ (0 : ℤ) < (([1, 2] : List ℕ).length : ℤ)
    ∧ gen [1, 2] 0 = (gens [1, 2])[(0 : ℤ).toNat]? :=
  ⟨by decide, by decide, ((gen_spec [1, 2] 0).1 (by decide) (by decide)).1⟩

/-- Counterexample to claim C8 as stated: the index -1 is outside
`0 ≤ i < 2`, yet `gen` does not fail; Python's sequence subscription
returns the last generator. -/
theorem gen_negative_cex :
    ((-1 : ℤ) < 0 ∨ (((1 : ℕ) :: [2]).length : ℤ) ≤ -1)
    ∧ gen [1, 2] (-1) = some (basisElt ((List.replicate 2 0).set 1 1)) := by
  refine ⟨Or.inl (by decide), ?_⟩
  rfl

/-- Translation of the accumulation loop of `_repr_term` (lines
244-251), over the zipped (name, exponent) pairs: skip zero exponents,
append `name*` for exponent 1 and `name^exponent*` otherwise. -/
def reprTermAux : List (PyStr × ℕ) → PyStr
  | [] => []
  | (nm, e) :: rest =>
      (if e = 0 then []
       else if e = 1 then nm ++ ['*']
       else nm ++ '^' :: (Nat.toDigits 10 e ++ ['*']))
      ++ reprTermAux rest

/-- Translation of `_repr_term` (lines 236-252): the unit renders as
"1"; otherwise the accumulated factor string with its final character
(the trailing `*`, Python `res[:-1]`) removed. -/
def reprTerm (names : List PyStr) (w : Index) : PyStr :=
  if w.sum = 0 then ['1']
  else (reprTermAux (names.zip w)).dropLast

/-- Formalisation of the spec's rendering of one nonzero factor:
`name` for exponent 1, `name^exponent` for larger exponents.  Used for
the refinement part of claim C9. -/
def renderFactor (nm : PyStr) (e : ℕ) : PyStr :=
  if e = 1 then nm else nm ++ '^' :: Nat.toDigits 10 e

/-- Formalisation of the spec's list of rendered factors: the nonzero
slots in declaration order. -/
def factorsAux (l : List (PyStr × ℕ)) : List PyStr :=
  (l.filter (fun p => p.2 != 0)).map (fun p => renderFactor p.1 p.2)

/-- Formalisation of the spec's "joined by the multiplication symbol
with no trailing separator". -/
def joinStar : List PyStr → PyStr
  | [] => []
  | [t] => t
  | t :: t2 :: ts => t ++ '*' :: joinStar (t2 :: ts)

/-- The source's accumulation equals the spec-side factor list joined
with a trailing separator. -/
theorem reprTermAux_eq (l : List (PyStr × ℕ)) :
    reprTermAux l
      = if factorsAux l = [] then [] else joinStar (factorsAux l) ++ ['*'] := by
  induction l with
  | nil => rfl
  | cons p rest ih =>
      obtain ⟨nm, e⟩ := p
      by_cases he : e = 0
      · subst he
        have hf : factorsAux ((nm, 0) :: rest) = factorsAux rest := by
          simp [factorsAux]
        rw [hf]
        simpa [reprTermAux] using ih
      · have hf : factorsAux ((nm, e) :: rest)
            = renderFactor nm e :: factorsAux rest := by
          simp [factorsAux, he]
        have hstep : reprTermAux ((nm, e) :: rest)
            = (renderFactor nm e ++ ['*']) ++ reprTermAux rest := by
          by_cases h1 : e = 1
          · subst h1
            simp [reprTermAux, renderFactor]
          · simp [reprTermAux, renderFactor, he, h1]
        rw [hstep, hf, ih]
        cases hrest : factorsAux rest with
        | nil =>
            simp [joinStar]
        | cons f2 fs =>
            simp [joinStar]

/-- For name and exponent lists of equal length, the factor list is
empty exactly when every exponent is zero. -/
theorem factorsAux_zip_eq_nil (names : List PyStr) :
    ∀ w : Index, names.length = w.length →
      (factorsAux (names.zip w) = [] ↔ w.sum = 0) := by
  induction names with
  | nil =>
      intro w hlen
      have hw : w = [] := List.length_eq_zero.mp hlen.symm
      subst hw
      simp [factorsAux]
  | cons nm nt ih =>
      intro w hlen
      cases w with
      | nil => simp at hlen
      | cons e wt =>
          simp only [List.length_cons, Nat.succ.injEq] at hlen
          by_cases he : e = 0
          · subst he
            have hf : factorsAux ((nm, 0) :: nt.zip wt) = factorsAux (nt.zip wt) := by
              simp [factorsAux]
            simp only [List.zip_cons_cons, hf, List.sum_cons, Nat.zero_add]
            exact ih wt hlen
          · have hf : factorsAux ((nm, e) :: nt.zip wt)
                = renderFactor nm e :: factorsAux (nt.zip wt) := by
              simp [factorsAux, he]
            simp only [List.zip_cons_cons, hf, List.sum_cons]
            constructor
            · intro h
              exact absurd h (List.cons_ne_nil _ _)
            · intro h
              omega

/-- Claim C9: `_repr_term` renders the all-zero exponent vector as
"1", and otherwise the nonzero slots in declaration order, `name` for
exponent 1 and `name^exponent` for larger exponents, joined by `*` with
no trailing separator. -/
theorem reprTerm_spec (names : List PyStr) (w : Index)
    (hlen : names.length = w.length) :
    ((∀ e ∈ w, e = 0) → reprTerm names w = ['1'])
    ∧ (¬(∀ e ∈ w, e = 0) →
        reprTerm names w = joinStar (factorsAux (names.zip w))) := by
  constructor
  · intro hall
    have hsum : w.sum = 0 := List.sum_eq_zero_iff.mpr hall
    unfold reprTerm
    rw [if_pos hsum]
  · intro hn
    have hsum : w.sum ≠ 0 := fun h => hn (List.sum_eq_zero_iff.mp h)
    have hf : factorsAux (names.zip w) ≠ [] := by
      rw [ne_eq, factorsAux_zip_eq_nil names w hlen]
      exact hsum
    unfold reprTerm
    rw [if_neg hsum, reprTermAux_eq, if_neg hf, List.dropLast_concat]

/-- Witness for claim C9 at names (x, y), exponent vector [2, 0]:
the rendering "x^2". -/
theorem reprTerm_spec_witness :
    ([['x'], ['y']] : List PyStr).length = ([2, 0] : Index).length
    ∧ ¬(∀ e ∈ ([2, 0] : Index), e = 0)
    ∧ reprTerm [['x'], ['y']] [2, 0]
        = joinStar (factorsAux (([['x'], ['y']] : List PyStr).zip [2, 0])) :=
  ⟨by decide, by decide,
    (reprTerm_spec [['x'], ['y']] [2, 0] (by decide)).2 (by decide)⟩

/-- Translation of the accumulation loop of `_latex_term` (lines
262-269).  The Python source appends the f-string with doubled braces,
which escape to literal brace characters: for every exponent larger
than 1 it emits the seven literal characters caret, opening brace, w,
opening bracket, i, closing bracket, closing brace — not the exponent
value.  `Char.ofNat 123` and `Char.ofNat 125` are the brace
characters. -/
def latexTermAux : List (PyStr × ℕ) → PyStr
  | [] => []
  | (nm, e) :: rest =>
      (if e = 0 then []
       else if e = 1 then nm
       else nm ++ '^' :: Char.ofNat 123 :: 'w' :: '[' :: 'i' :: ']' :: [Char.ofNat 125])
      ++ latexTermAux rest

/-- Translation of `_latex_term` (lines 254-270): the unit renders as
"1"; otherwise the factors are concatenated with no separator. -/
def latex_term (names : List PyStr) (w : Index) : PyStr :=
  if w.sum = 0 then ['1'] else latexTermAux (names.zip w)

/-- Claim C10 is contradicted by the code: at name x and exponent 2,
`_latex_term` emits the literal text `x` followed by caret, opening
brace, `w`, `[`, `i`, `]`, closing brace — independent of the exponent
value (the same string results for exponent 3), and in particular not
the intended rendering carrying the digit 2. -/
theorem latex_term_bug :
    latex_term [['x']] [2]
      = ['x', '^', Char.ofNat 123, 'w', '[', 'i', ']', Char.ofNat 125]
    ∧ latex_term [['x']] [2] = latex_term [['x']] [3]
    ∧ latex_term [['x']] [2]
      ≠ ['x', '^', Char.ofNat 123, '2', Char.ofNat 125] := by
  refine ⟨by decide, by decide, by decide⟩

end FiniteGCAlgebra
